import Mathlib

/-!
Verification development for the bib2mp3 repository (src/tokenizer.py and
src/bib2mp3.py).  Python strings are embedded as lists of characters
(`PyStr`), so `len` becomes `List.length`, `+` on strings becomes list
append, and all definitions are executable.  The external collaborators
(the gTTS base splitter and the nltk tagger/chunker) are passed in as
function parameters; everything written in the repository itself is
translated definition by definition.

The while-loop of `reconstruct` in tokenizer.py does not terminate on
every input, so it is embedded with an explicit fuel parameter returning
`Option`: `none` means the Python loop has not finished within the given
fuel (for the diverging inputs it is `none` for every fuel), and `none`
is also used for the paths where the Python code raises.
-/

set_option maxRecDepth 8000

namespace Bib2mp3

/-- Python strings, embedded as lists of characters. -/
abbrev PyStr := List Char

/-- Convenience conversion from a Lean string literal to `PyStr`. -/
def str (s : String) : PyStr := s.data

/-- Python `s.split(sep)` for a one-character separator `sep`:
accumulator holds the current piece reversed. -/
def splitCharAux (sep : Char) : PyStr → PyStr → List PyStr
  | [], acc => [acc.reverse]
  | c :: rest, acc =>
    if c = sep then acc.reverse :: splitCharAux sep rest []
    else splitCharAux sep rest (c :: acc)

/-- Python `s.split(sep)` for a one-character separator (keeps empty
pieces, and returns one piece for the empty string, like Python). -/
def splitChar (sep : Char) (s : PyStr) : List PyStr := splitCharAux sep s []

/-- Python `s.strip()`: remove leading and trailing whitespace. -/
def pyStrip (s : PyStr) : PyStr :=
  ((s.dropWhile Char.isWhitespace).reverse.dropWhile Char.isWhitespace).reverse

/-- Python `' '.join(l)`. -/
def joinSp : List PyStr → PyStr
  | [] => []
  | [s] => s
  | s :: t :: rest => s ++ [' '] ++ joinSp (t :: rest)

/-- Python `sep.join(l)` for an arbitrary separator. -/
def joinWith (sep : PyStr) : List PyStr → PyStr
  | [] => []
  | [s] => s
  | s :: t :: rest => s ++ sep ++ joinWith sep (t :: rest)

/-- Replace the last element of a list by `f` of it (models the Python
statement `l[-1] = f(l[-1])`; no effect on the empty list). -/
def mapLast (f : PyStr → PyStr) : List PyStr → List PyStr
  | [] => []
  | [s] => [f s]
  | s :: t :: rest => s :: mapLast f (t :: rest)

/-! ## tokenizer.py -/

/-- tokenizer.py line 6: `MAXCHARS = 100`. -/
def MAXCHARS : Nat := 100

/-- One entry of the nltk chunker output consumed by `consolidate`:
either a plain (word, tag) tuple, or a tree node whose children are
(word, tag) leaves.  An nltk tree node always has at least one child,
so the first child is stored separately. -/
inductive Node where
  | leaf : PyStr × PyStr → Node
  | phrase : PyStr × PyStr → List (PyStr × PyStr) → Node

/-- tokenizer.py lines 11-15, the body of `consolidate` for one entry:
a tree is collapsed into the pair (space-joined leaf words, tag of the
last leaf); a plain tuple is left as is. -/
def consolidateNode : Node → PyStr × PyStr
  | Node.leaf p => p
  | Node.phrase hd tl =>
    (joinSp ((hd :: tl).map Prod.fst), ((hd :: tl).getLast (List.cons_ne_nil hd tl)).snd)

/-- tokenizer.py lines 11-15: `consolidate` over the whole list
(the Python code mutates the list in place; the result is the mapped list). -/
def consolidate (nodes : List Node) : List (PyStr × PyStr) :=
  nodes.map consolidateNode

/-- tokenizer.py line 23: `counts = [len(tup[0])+1 for tup in tmp]`. -/
def unitCosts (tmp : List (PyStr × PyStr)) : List Nat :=
  tmp.map (fun u => u.1.length + 1)

/-- Running sums starting from `acc`; `cumsumFrom 0` models `np.cumsum`. -/
def cumsumFrom (acc : Nat) : List Nat → List Nat
  | [] => []
  | x :: xs => (acc + x) :: cumsumFrom (acc + x) xs

/-- tokenizer.py line 24:
`N = np.count_nonzero(np.cumsum(counts) <= MAXCHARS)`. -/
def packCount (tmp : List (PyStr × PyStr)) : Nat :=
  (cumsumFrom 0 (unitCosts tmp)).countP (fun c => decide (c ≤ MAXCHARS))

/-- tokenizer.py lines 22-27, the `while len(tmp) > 0` loop of
`reconstruct`, with fuel.  When `N = 0` the Python loop appends an empty
token and leaves `tmp` unchanged, hence never terminates; here the fuel
runs out and the result is `none` for every fuel. -/
def reconstructLoop : Nat → List (PyStr × PyStr) → Option (List PyStr)
  | _, [] => some []
  | 0, _ :: _ => none
  | fuel + 1, u :: us =>
    (reconstructLoop fuel ((u :: us).drop (packCount (u :: us)))).map
      (fun rest => joinSp (((u :: us).take (packCount (u :: us))).map Prod.fst) :: rest)

/-- tokenizer.py lines 17-28: `reconstruct`.  Python first evaluates
`tmp[-1][0]` (an IndexError on an empty list, modelled as `none`), pops
the last entry when its text is a lone period, then runs the packing
loop. -/
def reconstructOpt (fuel : Nat) (token_tags : List (PyStr × PyStr)) : Option (List PyStr) :=
  match token_tags.getLast? with
  | none => none
  | some last =>
    reconstructLoop fuel (if last.1 = str "." then token_tags.dropLast else token_tags)

/-- tokenizer.py lines 68-85, the `for phrase in token.split(':')` loop
of `MyTokenizer`.  `analyze` stands for the external nltk pipeline
`chunker.parse(nltk.pos_tag(nltk.word_tokenize(phrase)))` (lines 75-78);
its output is consumed by `consolidate` and `reconstruct`, which are
translated from the source. -/
def processPhrases (analyze : PyStr → List Node) (fuel : Nat) :
    List PyStr → Option (List PyStr)
  | [] => some []
  | phrase :: rest =>
    if phrase.length ≤ MAXCHARS then
      (processPhrases analyze fuel rest).map (fun more => phrase :: more)
    else
      match reconstructOpt fuel (consolidate (analyze phrase)) with
      | none => none
      | some toks => (processPhrases analyze fuel rest).map (fun more => toks ++ more)

/-- tokenizer.py lines 62-89, the `for i,token in enumerate(default_tokens)`
loop of `MyTokenizer`. -/
def processTokens (analyze : PyStr → List Node) (fuel : Nat) :
    List PyStr → Option (List PyStr)
  | [] => some []
  | token :: rest =>
    if MAXCHARS < token.length then
      match processPhrases analyze fuel (splitChar ':' token) with
      | none => none
      | some chunks => (processTokens analyze fuel rest).map (fun more => chunks ++ more)
    else
      (processTokens analyze fuel rest).map (fun more => token :: more)

/-- tokenizer.py lines 58-90: `MyTokenizer`.  `dt` stands for the external
gTTS base splitter `default_tokenizer` (lines 48-56); `analyze` for the
external nltk pipeline. -/
def MyTokenizer (dt : PyStr → List PyStr) (analyze : PyStr → List Node)
    (fuel : Nat) (text : PyStr) : Option (List PyStr) :=
  processTokens analyze fuel (dt text)

/-- The leaf words of one chunker node, in order. -/
def flattenNode : Node → List PyStr
  | Node.leaf p => [p.1]
  | Node.phrase hd tl => (hd :: tl).map Prod.fst

/-- All leaf words of a chunker output, in order: the words of the piece
being reconstructed. -/
def flattenWords (nodes : List Node) : List PyStr :=
  (nodes.map flattenNode).flatten

/-- Drop the final node when it consolidates to a lone period (this is
the unit `reconstruct` pops before packing). -/
def stripTrailingPeriod (nodes : List Node) : List Node :=
  match nodes.getLast? with
  | none => nodes
  | some n => if (consolidateNode n).1 = str "." then nodes.dropLast else nodes

/-! ## Reference packing step, from the words of the spec (for claim C3) -/

/-- Modelled from the spec: the cumulative joined length of a run of
units, i.e. the unit lengths plus one separating space between
consecutive units. -/
def joinedLen (l : List PyStr) : Nat :=
  if l = [] then 0 else (l.map List.length).sum + (l.length - 1)

/-- Modelled from the spec: the length of the maximal prefix of the
remaining units whose cumulative joined length is at most `B`. -/
def maxPrefixLen (B : Nat) (tmp : List (PyStr × PyStr)) : Nat :=
  ((List.range (tmp.length + 1)).filter
    (fun k => decide (joinedLen ((tmp.take k).map Prod.fst) ≤ B))).foldl max 0

/-- Modelled from the spec: the reference packing step of claim C3 - at
each round take the maximal prefix of the remaining units whose
cumulative joined length is at most `B`, emit it joined by single
spaces, and repeat on the remainder (with the same fuel discipline as
the embedded loop). -/
def refPack : Nat → Nat → List (PyStr × PyStr) → Option (List PyStr)
  | _, _, [] => some []
  | 0, _, _ :: _ => none
  | fuel + 1, B, u :: us =>
    (refPack fuel B ((u :: us).drop (maxPrefixLen B (u :: us)))).map
      (fun rest => joinSp (((u :: us).take (maxPrefixLen B (u :: us))).map Prod.fst) :: rest)

/-- Greedy prefix counter used to reason about `packCount`: the number of
leading elements that fit into budget `B` when consumed left to right. -/
def greedyN (B : Nat) : List Nat → Nat
  | [] => 0
  | x :: xs => if x ≤ B then greedyN (B - x) xs + 1 else 0

/-! ## bib2mp3.py -/

/-- The fields of one bibliography record used by the embedded parts of
`BibtexLibrary`: the record key and the optional year and month fields
(`article.get` returns `None` for a missing field). -/
structure Article where
  ID : PyStr
  year : Option PyStr := none
  month : Option PyStr := none

/-- Python truthiness of an optional string: `None` and the empty string
are falsy. -/
def truthy : Option PyStr → Bool
  | none => false
  | some s => !s.isEmpty

/-- Membership test on a list of strings (Python `in` for `set`). -/
def pyMem (k : PyStr) : List PyStr → Bool
  | [] => false
  | x :: rest => (x = k) || pyMem k rest

/-- Number of distinct elements: `len(set(keys))`. -/
def setSize : List PyStr → Nat
  | [] => 0
  | k :: rest => if pyMem k rest then setSize rest else setSize rest + 1

/-- bib2mp3.py lines 32-35, the start of `_process_bib_data`: collect the
record keys and assert `len(self.keys) == len(set(self.keys))`; a failed
assert is a hard stop (`Except.error`) before any further processing,
otherwise extraction proceeds on the keys. -/
def processBibData (lib : List Article) : Except PyStr (List PyStr) :=
  if (lib.map Article.ID).length = setSize (lib.map Article.ID) then
    Except.ok (lib.map Article.ID)
  else Except.error (str "article keys are not unique!")

/-- Message of the Python `TypeError` raised by `'{:s} {:s}'.format(month, year)`
when `year` is `None`. -/
def dateTypeError : PyStr :=
  str "unsupported format string passed to NoneType.__format__"

/-- bib2mp3.py lines 92-100, the per-record body of `_process_bib_dates`:
`date` is `None` without a year, the year alone without a month, and
`'{:s} {:s}'.format(month, year)` when a month is present - which raises
a TypeError when the year is missing. -/
def mkDate (a : Article) : Except PyStr (Option PyStr) :=
  match a.year, a.month with
  | none, none => Except.ok none
  | some y, none => Except.ok (some y)
  | some y, some m => Except.ok (some (m ++ ' ' :: y))
  | none, some _ => Except.error dateTypeError

/-- The `for key,article in zip(...)` loop of `_process_bib_dates`:
sequential, the first raised exception aborts. -/
def mapDates : List Article → Except PyStr (List (Option PyStr))
  | [] => Except.ok []
  | a :: rest =>
    match mkDate a with
    | Except.error e => Except.error e
    | Except.ok d =>
      match mapDates rest with
      | Except.error e => Except.error e
      | Except.ok ds => Except.ok (d :: ds)

/-- bib2mp3.py lines 88-107: `_process_bib_dates`, returning the reported
count `num_missing_dates = np.count_nonzero([(d is None) for _,d in ...])`
(the keys are distinct here, the uniqueness assert having already run,
so counting over records equals counting over the dict). -/
def processDates (lib : List Article) : Except PyStr Nat :=
  match mapDates lib with
  | Except.error e => Except.error e
  | Except.ok dates => Except.ok (dates.countP (fun d => d.isNone))

/-- bib2mp3.py lines 66-70, the per-author body of `_process_bib_authors`:
split on the comma, strip each part, and join the reversed parts with a
space (`' '.join(firstlast[::-1])`). -/
def reverseName (author : PyStr) : PyStr :=
  joinSp (((splitChar ',' author).map pyStrip).reverse)

/-- bib2mp3.py lines 64-79: name normalization and author-list joining.
`none` models the Python `assert len(firstlast) <= 2` failing (an author
with two or more commas) and the IndexError on an empty list
(`authorlist_firstlast[0]` in the final branch). -/
def formatAuthors (authorlist : List PyStr) : Option PyStr :=
  if authorlist.any (fun a => 2 < (splitChar ',' a).length) then none
  else
    match authorlist.map reverseName with
    | [] => none
    | [a] => some a
    | [a, b] => some (a ++ str " and " ++ b)
    | [a, b, c] => some (a ++ str ", " ++ b ++ str ", and " ++ c)
    | a :: _ :: _ :: _ :: _ => some (a ++ str " et al")

/-- Modelled from the claim C7 wording: join 1 author as is, 2 as
"A and B", 3 as "A, B, and C", and 4 or more as "A et al" with A the
first author. -/
def claimJoin : List PyStr → PyStr
  | [] => []
  | [a] => a
  | [a, b] => a ++ str " and " ++ b
  | [a, b, c] => a ++ str ", " ++ b ++ str ", and " ++ c
  | a :: _ :: _ :: _ :: _ => a ++ str " et al"

/-- bib2mp3.py lines 172-181, the keyword clause of
`generate_descriptions`.  The Python conditions `kwlist == 1` and
`kwlist == 2` compare the list itself (not its length) with an integer
and are therefore always False, so only the general branch
(`kwlist[-1] = 'and '+kwlist[-1]; kwstr = ', '.join(kwlist)`) ever runs. -/
def keywordClause (kw : PyStr) : PyStr :=
  let kwlist := (splitChar ',' kw).map pyStrip
  str " Publication keywords include: "
    ++ joinWith (str ", ") (mapLast (fun s => str "and " ++ s) kwlist)
    ++ str "."

/-- The per-record normalized values consumed by `generate_descriptions`. -/
structure ProcessedRecord where
  author : PyStr
  title : PyStr
  date : Option PyStr := none
  publication : Option PyStr := none
  keywords : Option PyStr := none
  abstract : Option PyStr := none

/-- bib2mp3.py lines 159-188: the description composed by
`generate_descriptions` for one record. -/
def generateDescription (r : ProcessedRecord) : PyStr :=
  (if truthy r.date then str "In " ++ r.date.getD [] ++ str ", " else [])
  ++ r.author ++ str " published a paper entitled: " ++ r.title ++ str "."
  ++ (if truthy r.publication then
        str " This was published in " ++ r.publication.getD [] ++ str "." else [])
  ++ (if truthy r.keywords then keywordClause (r.keywords.getD []) else [])
  ++ (if truthy r.abstract then str " The abstract reads: " ++ r.abstract.getD []
      else str " There is no abstract available.")
  ++ str " This concludes the summary of the work by " ++ r.author ++ str "."

/-! ## Helper lemmas about joining -/

theorem joinSp_cons_of_ne_nil (s : PyStr) {l : List PyStr} (h : l ≠ []) :
    joinSp (s :: l) = s ++ [' '] ++ joinSp l := by
  cases l with
  | nil => exact absurd rfl h
  | cons t r => rfl

theorem joinSp_append {A B : List PyStr} (hA : A ≠ []) (hB : B ≠ []) :
    joinSp (A ++ B) = joinSp A ++ [' '] ++ joinSp B := by
  induction A with
  | nil => exact absurd rfl hA
  | cons s A ih =>
    cases A with
    | nil =>
      rw [List.singleton_append, joinSp_cons_of_ne_nil s hB]
      rfl
    | cons t A2 =>
      have h2 : (t :: A2 : List PyStr) ≠ [] := List.cons_ne_nil _ _
      rw [List.cons_append, joinSp_cons_of_ne_nil s (by simp),
        joinSp_cons_of_ne_nil s h2, ih h2]
      simp [List.append_assoc]

theorem joinSp_length {l : List PyStr} (h : l ≠ []) :
    (joinSp l).length + 1 = (l.map (fun s => s.length + 1)).sum := by
  induction l with
  | nil => exact absurd rfl h
  | cons s l ih =>
    cases l with
    | nil => simp [joinSp]
    | cons t r =>
      rw [joinSp_cons_of_ne_nil s (List.cons_ne_nil _ _)]
      have h2 := ih (List.cons_ne_nil t r)
      simp only [List.map_cons, List.sum_cons] at h2 ⊢
      simp only [List.length_append, List.length_cons, List.length_nil]
      omega

/-! ## Helper lemmas about the greedy count -/

theorem greedyN_le_length (B : Nat) (l : List Nat) : greedyN B l ≤ l.length := by
  induction l generalizing B with
  | nil => simp [greedyN]
  | cons x xs ih =>
    simp only [greedyN, List.length_cons]
    split
    · exact Nat.succ_le_succ (ih _)
    · exact Nat.zero_le _

theorem greedyN_sum_le (B : Nat) (l : List Nat) : (l.take (greedyN B l)).sum ≤ B := by
  induction l generalizing B with
  | nil => simp [greedyN]
  | cons x xs ih =>
    simp only [greedyN]
    split
    · rename_i hx
      simp only [List.take_succ_cons, List.sum_cons]
      have := ih (B - x)
      omega
    · simp

theorem le_greedyN {B k : Nat} {l : List Nat} (hk : k ≤ l.length)
    (hs : (l.take k).sum ≤ B) : k ≤ greedyN B l := by
  induction l generalizing B k with
  | nil =>
    have hz : k = 0 := by simpa using hk
    simp [hz, greedyN]
  | cons x xs ih =>
    cases k with
    | zero => exact Nat.zero_le _
    | succ j =>
      simp only [List.take_succ_cons, List.sum_cons] at hs
      have hx : x ≤ B := le_trans (Nat.le_add_right _ _) hs
      simp only [greedyN, if_pos hx]
      have hj : (xs.take j).sum ≤ B - x := by omega
      exact Nat.succ_le_succ (ih (by simpa using hk) hj)

theorem cumsumFrom_eq_map (l : List Nat) :
    ∀ acc, cumsumFrom acc l = (cumsumFrom 0 l).map (fun c => acc + c) := by
  induction l with
  | nil => intro _; rfl
  | cons x xs ih =>
    intro acc
    simp only [cumsumFrom, Nat.zero_add, List.map_cons]
    rw [ih (acc + x), ih x, List.map_map]
    have hfun : ((fun c => acc + c) ∘ fun c => x + c) = fun c => acc + x + c := by
      funext c
      simp [Function.comp, Nat.add_assoc]
    rw [hfun]

theorem countP_cumsum (B : Nat) (l : List Nat) :
    (cumsumFrom 0 l).countP (fun c => decide (c ≤ B)) = greedyN B l := by
  induction l generalizing B with
  | nil => rfl
  | cons x xs ih =>
    simp only [cumsumFrom, Nat.zero_add, greedyN]
    rw [cumsumFrom_eq_map xs x, List.countP_cons, List.countP_map]
    by_cases hx : x ≤ B
    · rw [if_pos hx]
      have hfun : ((fun c => decide (c ≤ B)) ∘ fun c => x + c)
          = fun c => decide (c ≤ B - x) := by
        funext c
        simp only [Function.comp, decide_eq_decide]
        omega
      rw [hfun, ih]
      simp [hx]
    · rw [if_neg hx]
      have h0 : (cumsumFrom 0 xs).countP ((fun c => decide (c ≤ B)) ∘ fun c => x + c) = 0 := by
        refine List.countP_eq_zero.mpr ?_
        intro c _
        simp only [Function.comp, decide_eq_true_eq]
        omega
      rw [h0]
      simp [hx]

theorem packCount_eq_greedy (tmp : List (PyStr × PyStr)) :
    packCount tmp = greedyN MAXCHARS (unitCosts tmp) :=
  countP_cumsum _ _

/-! ## Helper lemmas about the reconstruct loop -/

theorem reconstructLoop_nil (fuel : Nat) : reconstructLoop fuel [] = some [] := by
  cases fuel <;> rfl

theorem reconstructLoop_none_of_stuck {u : PyStr × PyStr} {us : List (PyStr × PyStr)}
    (h : packCount (u :: us) = 0) : ∀ fuel, reconstructLoop fuel (u :: us) = none := by
  intro fuel
  induction fuel with
  | zero => rfl
  | succ n ih =>
    show (reconstructLoop n ((u :: us).drop (packCount (u :: us)))).map _ = none
    rw [h, List.drop_zero, ih]
    rfl

theorem reconstructLoop_pos_of_some {fuel : Nat} {u : PyStr × PyStr}
    {us : List (PyStr × PyStr)} {chunks : List PyStr}
    (h : reconstructLoop fuel (u :: us) = some chunks) : 0 < packCount (u :: us) := by
  rcases Nat.eq_zero_or_pos (packCount (u :: us)) with h0 | hpos
  · rw [reconstructLoop_none_of_stuck h0 fuel] at h
    cases h
  · exact hpos

theorem reconstructLoop_some_ne_nil {fuel : Nat} {u : PyStr × PyStr}
    {us : List (PyStr × PyStr)} {chunks : List PyStr}
    (h : reconstructLoop fuel (u :: us) = some chunks) : chunks ≠ [] := by
  cases fuel with
  | zero => cases h
  | succ n =>
    revert h
    show (reconstructLoop n _).map _ = some chunks → chunks ≠ []
    cases reconstructLoop n ((u :: us).drop (packCount (u :: us))) with
    | none => intro h; cases h
    | some rest =>
      intro h
      cases h
      exact List.cons_ne_nil _ _

theorem take_map_fst_ne_nil {u : PyStr × PyStr} {us : List (PyStr × PyStr)} {N : Nat}
    (hN : 0 < N) : ((u :: us).take N).map Prod.fst ≠ [] := by
  obtain ⟨m, rfl⟩ := Nat.exists_eq_add_of_lt hN
  simp [List.take_succ_cons]

theorem reconstructLoop_join {fuel : Nat} : ∀ {tmp : List (PyStr × PyStr)} {chunks : List PyStr},
    reconstructLoop fuel tmp = some chunks → joinSp chunks = joinSp (tmp.map Prod.fst) := by
  induction fuel with
  | zero =>
    intro tmp chunks h
    cases tmp with
    | nil => cases h; rfl
    | cons u us => cases h
  | succ n ih =>
    intro tmp chunks h
    cases tmp with
    | nil => cases h; rfl
    | cons u us =>
      have hpos := reconstructLoop_pos_of_some h
      revert h
      show (reconstructLoop n _).map _ = some chunks → _
      cases hin : reconstructLoop n ((u :: us).drop (packCount (u :: us))) with
      | none => intro h; cases h
      | some rest =>
        intro h
        cases h
        by_cases hnil : (u :: us).drop (packCount (u :: us)) = []
        · rw [hnil, reconstructLoop_nil] at hin
          cases hin
          have htake : (u :: us).take (packCount (u :: us)) = u :: us :=
            List.take_of_length_le (List.drop_eq_nil_iff.mp hnil)
          rw [htake]
          rfl
        · have hrest : rest ≠ [] := by
            obtain ⟨v, vs, hvs⟩ := List.exists_cons_of_ne_nil hnil
            rw [hvs] at hin
            exact reconstructLoop_some_ne_nil hin
          have hBne : ((u :: us).drop (packCount (u :: us))).map Prod.fst ≠ [] := by
            simpa using hnil
          rw [joinSp_cons_of_ne_nil _ hrest, ih hin]
          conv_rhs =>
            rw [← List.take_append_drop (packCount (u :: us)) (u :: us), List.map_append]
          rw [joinSp_append (take_map_fst_ne_nil hpos) hBne]

theorem take_costs_eq {tmp : List (PyStr × PyStr)} {N : Nat} :
    (((tmp.take N).map Prod.fst).map (fun s => s.length + 1)) = (unitCosts tmp).take N := by
  simp [unitCosts, List.map_take, List.map_map]
  rfl

theorem reconstructLoop_bound {fuel : Nat} : ∀ {tmp : List (PyStr × PyStr)} {chunks : List PyStr},
    reconstructLoop fuel tmp = some chunks → ∀ c ∈ chunks, c.length ≤ MAXCHARS := by
  induction fuel with
  | zero =>
    intro tmp chunks h
    cases tmp with
    | nil => cases h; intro c hc; cases hc
    | cons u us => cases h
  | succ n ih =>
    intro tmp chunks h
    cases tmp with
    | nil => cases h; intro c hc; cases hc
    | cons u us =>
      have hpos := reconstructLoop_pos_of_some h
      revert h
      show (reconstructLoop n _).map _ = some chunks → _
      cases hin : reconstructLoop n ((u :: us).drop (packCount (u :: us))) with
      | none => intro h; cases h
      | some rest =>
        intro h
        cases h
        intro c hc
        rcases List.mem_cons.mp hc with rfl | hmem
        · have hne := @take_map_fst_ne_nil u us _ hpos
          have hlen := joinSp_length hne
          rw [take_costs_eq] at hlen
          have hsum : ((unitCosts (u :: us)).take (packCount (u :: us))).sum ≤ MAXCHARS := by
            rw [packCount_eq_greedy]
            exact greedyN_sum_le _ _
          omega
        · exact ih hin c hmem

theorem reconstructOpt_bound {fuel : Nat} {tts : List (PyStr × PyStr)} {chunks : List PyStr}
    (h : reconstructOpt fuel tts = some chunks) : ∀ c ∈ chunks, c.length ≤ MAXCHARS := by
  unfold reconstructOpt at h
  cases hl : tts.getLast? with
  | none => rw [hl] at h; cases h
  | some last =>
    rw [hl] at h
    exact reconstructLoop_bound h

/-! ## Helper lemmas about consolidation and words -/

theorem consolidateNode_fst (n : Node) : (consolidateNode n).1 = joinSp (flattenNode n) := by
  cases n <;> rfl

theorem flattenNode_ne_nil (n : Node) : flattenNode n ≠ [] := by
  cases n <;> simp [flattenNode]

theorem flattenWords_cons (n : Node) (rest : List Node) :
    flattenWords (n :: rest) = flattenNode n ++ flattenWords rest := by
  simp [flattenWords]

theorem flattenWords_ne_nil {rest : List Node} (h : rest ≠ []) : flattenWords rest ≠ [] := by
  obtain ⟨n, r, rfl⟩ := List.exists_cons_of_ne_nil h
  rw [flattenWords_cons]
  exact fun hx => flattenNode_ne_nil n (List.append_eq_nil.mp hx).1

theorem joinSp_consolidate : ∀ nodes : List Node,
    joinSp ((consolidate nodes).map Prod.fst) = joinSp (flattenWords nodes) := by
  intro nodes
  induction nodes with
  | nil => rfl
  | cons n rest ih =>
    rw [flattenWords_cons]
    show joinSp ((consolidateNode n).1 :: (consolidate rest).map Prod.fst) = _
    rw [consolidateNode_fst]
    cases hr : rest with
    | nil =>
      simp [consolidate, flattenWords, joinSp]
    | cons m r =>
      have hrn : rest ≠ [] := by rw [hr]; exact List.cons_ne_nil _ _
      have hu : (consolidate rest).map Prod.fst ≠ [] := by
        rw [hr]; simp [consolidate]
      rw [← hr, joinSp_cons_of_ne_nil _ hu,
        joinSp_append (flattenNode_ne_nil n) (flattenWords_ne_nil hrn), ih]

theorem getLast?_cons_ne_none {α : Type} (m : α) : ∀ r : List α, (m :: r).getLast? ≠ none := by
  intro r
  induction r generalizing m with
  | nil => simp
  | cons b r ih =>
    rw [List.getLast?_cons_cons]
    exact ih b

theorem getLast?_map {α β : Type} (f : α → β) : ∀ l : List α,
    (l.map f).getLast? = (l.getLast?).map f := by
  intro l
  induction l with
  | nil => rfl
  | cons a l ih =>
    cases l with
    | nil => rfl
    | cons b m =>
      simp only [List.map_cons, List.getLast?_cons_cons] at *
      exact ih

theorem dropLast_map {α β : Type} (f : α → β) : ∀ l : List α,
    (l.map f).dropLast = (l.dropLast).map f := by
  intro l
  induction l with
  | nil => rfl
  | cons a l ih =>
    cases l with
    | nil => rfl
    | cons b m =>
      simp only [List.map_cons, List.dropLast_cons₂] at *
      rw [ih]

/-! ## Helper lemmas about the reference packing step -/

theorem sum_map_add_one (A : List PyStr) :
    (A.map (fun s => s.length + 1)).sum = (A.map List.length).sum + A.length := by
  induction A with
  | nil => rfl
  | cons s A ih =>
    simp only [List.map_cons, List.sum_cons, List.length_cons, ih]
    omega

theorem joinedLen_add_one {A : List PyStr} (h : A ≠ []) :
    joinedLen A + 1 = (A.map (fun s => s.length + 1)).sum := by
  unfold joinedLen
  rw [if_neg h, sum_map_add_one]
  have := List.length_pos.mpr h
  omega

theorem foldl_max_eq (l : List Nat) : ∀ a, l.foldl max a = max a (l.foldr max 0) := by
  induction l with
  | nil => intro a; simp
  | cons x xs ih =>
    intro a
    simp only [List.foldl_cons, List.foldr_cons]
    rw [ih (max a x)]
    exact Nat.max_assoc a x _

theorem foldr_max_le {l : List Nat} {b : Nat} (h : ∀ y ∈ l, y ≤ b) : l.foldr max 0 ≤ b := by
  induction l with
  | nil => simp
  | cons x xs ih =>
    simp only [List.foldr_cons]
    exact max_le (h x (List.mem_cons_self _ _)) (ih fun y hy => h y (List.mem_cons_of_mem _ hy))

theorem le_foldr_max {l : List Nat} {x : Nat} (h : x ∈ l) : x ≤ l.foldr max 0 := by
  induction l with
  | nil => cases h
  | cons y ys ih =>
    rcases List.mem_cons.mp h with rfl | hm
    · exact le_max_left _ _
    · exact le_trans (ih hm) (le_max_right _ _)

theorem take_map_len {tmp : List (PyStr × PyStr)} {k : Nat} (hk : k ≤ tmp.length) :
    ((tmp.take k).map Prod.fst).length = k := by
  simp [List.length_take]
  omega

theorem maxPrefixLen_eq_greedy (B : Nat) (tmp : List (PyStr × PyStr)) :
    maxPrefixLen B tmp = greedyN (B + 1) (unitCosts tmp) := by
  have hlen : (unitCosts tmp).length = tmp.length := by simp [unitCosts]
  set N := greedyN (B + 1) (unitCosts tmp) with hN
  have hNle : N ≤ tmp.length := by
    rw [← hlen]; exact greedyN_le_length _ _
  have hgood : ∀ k, k ≤ tmp.length →
      (joinedLen ((tmp.take k).map Prod.fst) ≤ B ↔ ((unitCosts tmp).take k).sum ≤ B + 1) := by
    intro k hk
    cases k with
    | zero => simp [joinedLen]
    | succ j =>
      have hne : (tmp.take (j + 1)).map Prod.fst ≠ [] := by
        have := take_map_len hk
        intro hx
        rw [hx] at this
        cases this
      have := joinedLen_add_one hne
      rw [take_costs_eq] at this
      omega
  unfold maxPrefixLen
  rw [foldl_max_eq, Nat.zero_max]
  apply Nat.le_antisymm
  · apply foldr_max_le
    intro k hk
    obtain ⟨hkr, hkp⟩ := List.mem_filter.mp hk
    have hklt : k ≤ tmp.length := by
      have := List.mem_range.mp hkr
      omega
    have hsum : ((unitCosts tmp).take k).sum ≤ B + 1 :=
      (hgood k hklt).mp (of_decide_eq_true hkp)
    exact le_greedyN (by rw [hlen]; exact hklt) hsum
  · apply le_foldr_max
    rw [List.mem_filter]
    constructor
    · exact List.mem_range.mpr (by omega)
    · exact decide_eq_true ((hgood N hNle).mpr (by rw [hN]; exact greedyN_sum_le _ _))

/-! ## Helper lemmas about key uniqueness -/

theorem pyMem_iff {k : PyStr} : ∀ {l : List PyStr}, pyMem k l = true ↔ k ∈ l := by
  intro l
  induction l with
  | nil => simp [pyMem]
  | cons x rest ih =>
    simp only [pyMem, Bool.or_eq_true, decide_eq_true_eq, List.mem_cons, ih]
    constructor
    · rintro (rfl | h)
      · exact Or.inl rfl
      · exact Or.inr h
    · rintro (rfl | h)
      · exact Or.inl rfl
      · exact Or.inr h

theorem setSize_le : ∀ l : List PyStr, setSize l ≤ l.length := by
  intro l
  induction l with
  | nil => simp [setSize]
  | cons k rest ih =>
    simp only [setSize, List.length_cons]
    split
    · omega
    · omega

theorem setSize_eq_iff : ∀ l : List PyStr, l.length = setSize l ↔ l.Nodup := by
  intro l
  induction l with
  | nil => simp [setSize]
  | cons k rest ih =>
    simp only [setSize, List.length_cons, List.nodup_cons]
    by_cases hm : pyMem k rest = true
    · rw [if_pos hm]
      have hk : k ∈ rest := pyMem_iff.mp hm
      have hle := setSize_le rest
      constructor
      · intro h
        exact absurd h (by omega)
      · rintro ⟨hnk, _⟩
        exact absurd hk hnk
    · rw [if_neg hm]
      have hk : k ∉ rest := fun h => hm (pyMem_iff.mpr h)
      constructor
      · intro h
        exact ⟨hk, (ih).mp (by omega)⟩
      · rintro ⟨_, hnd⟩
        have := (ih).mpr hnd
        omega

/-! ## Helper lemmas about comma splitting and names -/

theorem splitCharAux_no_sep {sep : Char} : ∀ (l acc : PyStr), (∀ c ∈ l, c ≠ sep) →
    splitCharAux sep l acc = [acc.reverse ++ l] := by
  intro l
  induction l with
  | nil =>
    intro acc _
    simp [splitCharAux]
  | cons c rest ih =>
    intro acc h
    have hc : c ≠ sep := h c (List.mem_cons_self _ _)
    simp only [splitCharAux, if_neg hc]
    rw [ih (c :: acc) fun d hd => h d (List.mem_cons_of_mem _ hd)]
    simp

theorem splitCharAux_sep_split {sep : Char} : ∀ (l f acc : PyStr), (∀ c ∈ l, c ≠ sep) →
    splitCharAux sep (l ++ sep :: f) acc = (acc.reverse ++ l) :: splitCharAux sep f [] := by
  intro l
  induction l with
  | nil =>
    intro f acc _
    simp [splitCharAux]
  | cons c rest ih =>
    intro f acc h
    have hc : c ≠ sep := h c (List.mem_cons_self _ _)
    simp only [List.cons_append, splitCharAux, if_neg hc, List.append_eq]
    rw [ih f (c :: acc) fun d hd => h d (List.mem_cons_of_mem _ hd)]
    simp

theorem splitChar_pair {sep : Char} {l f : PyStr} (hl : ∀ c ∈ l, c ≠ sep)
    (hf : ∀ c ∈ f, c ≠ sep) : splitChar sep (l ++ sep :: f) = [l, f] := by
  unfold splitChar
  rw [splitCharAux_sep_split l f [] hl, splitCharAux_no_sep f [] hf]
  simp

theorem reverseName_render (p : PyStr × PyStr) (h1 : ∀ c ∈ p.1, c ≠ ',')
    (h2 : ∀ c ∈ p.2, c ≠ ',') :
    reverseName (p.1 ++ ',' :: p.2) = pyStrip p.2 ++ ' ' :: pyStrip p.1 := by
  unfold reverseName
  rw [splitChar_pair h1 h2]
  show joinSp [pyStrip p.2, pyStrip p.1] = _
  show pyStrip p.2 ++ [' '] ++ pyStrip p.1 = _
  simp

/-! ## Helper lemmas about dates -/

theorem mapDates_error_of_bad : ∀ {lib : List Article},
    (∃ a ∈ lib, a.month.isSome = true ∧ a.year = none) →
    mapDates lib = Except.error dateTypeError := by
  intro lib
  induction lib with
  | nil =>
    rintro ⟨a, ha, _⟩
    cases ha
  | cons a rest ih =>
    rintro ⟨b, hb, hbad⟩
    rcases List.mem_cons.mp hb with rfl | hmem
    · obtain ⟨ID, y, mo⟩ := b
      obtain ⟨m, hm⟩ := Option.isSome_iff_exists.mp hbad.1
      have hy : y = none := hbad.2
      subst hy
      simp only at hm
      subst hm
      rfl
    · obtain ⟨ID, y, mo⟩ := a
      have hrest := ih ⟨b, hmem, hbad⟩
      cases y with
      | some yv =>
        cases mo with
        | none => simp [mapDates, mkDate, hrest]
        | some mv => simp [mapDates, mkDate, hrest]
      | none =>
        cases mo with
        | none => simp [mapDates, mkDate, hrest]
        | some mv => rfl

theorem mapDates_ok_of_good : ∀ {lib : List Article},
    (∀ a ∈ lib, a.month.isSome = true → a.year.isSome = true) →
    ∃ ds, mapDates lib = Except.ok ds ∧
      ds.countP (fun d => d.isNone) = lib.countP (fun a => a.year.isNone) := by
  intro lib
  induction lib with
  | nil =>
    intro _
    exact ⟨[], rfl, rfl⟩
  | cons a rest ih =>
    intro h
    obtain ⟨ds, hds, hcount⟩ := ih fun b hb => h b (List.mem_cons_of_mem _ hb)
    obtain ⟨ID, y, mo⟩ := a
    cases y with
    | some yv =>
      cases mo with
      | none =>
        refine ⟨some yv :: ds, ?_, ?_⟩
        · simp [mapDates, mkDate, hds]
        · simp [List.countP_cons, hcount]
      | some mv =>
        refine ⟨some (mv ++ ' ' :: yv) :: ds, ?_, ?_⟩
        · simp [mapDates, mkDate, hds]
        · simp [List.countP_cons, hcount]
    | none =>
      cases mo with
      | some mv =>
        have := h ⟨ID, none, some mv⟩ (List.mem_cons_self _ _) rfl
        cases this
      | none =>
        refine ⟨none :: ds, ?_, ?_⟩
        · simp [mapDates, mkDate, hds]
        · simp [List.countP_cons, hcount]

/-! ## Bounds for the full tokenizer pipeline -/

theorem processPhrases_bound {analyze : PyStr → List Node} {fuel : Nat} :
    ∀ {ps chunks : List PyStr}, processPhrases analyze fuel ps = some chunks →
      ∀ c ∈ chunks, c.length ≤ MAXCHARS := by
  intro ps
  induction ps with
  | nil =>
    intro chunks h
    cases h
    intro c hc
    cases hc
  | cons phrase rest ih =>
    intro chunks h
    simp only [processPhrases] at h
    split at h
    · rename_i hlen
      cases hr : processPhrases analyze fuel rest with
      | none => rw [hr] at h; exact Option.noConfusion h
      | some more =>
        rw [hr] at h
        have h2 : phrase :: more = chunks := by simpa using h
        subst h2
        intro c hc
        rcases List.mem_cons.mp hc with rfl | hm
        · exact hlen
        · exact ih hr c hm
    · cases hro : reconstructOpt fuel (consolidate (analyze phrase)) with
      | none => rw [hro] at h; exact Option.noConfusion h
      | some toks =>
        rw [hro] at h
        have h4 : (processPhrases analyze fuel rest).map (fun more => toks ++ more)
            = some chunks := h
        cases hr : processPhrases analyze fuel rest with
        | none => rw [hr] at h4; exact Option.noConfusion h4
        | some more =>
          rw [hr] at h4
          have h2 : toks ++ more = chunks := by simpa using h4
          subst h2
          intro c hc
          rcases List.mem_append.mp hc with hm | hm
          · exact reconstructOpt_bound hro c hm
          · exact ih hr c hm

theorem processTokens_bound {analyze : PyStr → List Node} {fuel : Nat} :
    ∀ {ts chunks : List PyStr}, processTokens analyze fuel ts = some chunks →
      ∀ c ∈ chunks, c.length ≤ MAXCHARS := by
  intro ts
  induction ts with
  | nil =>
    intro chunks h
    cases h
    intro c hc
    cases hc
  | cons token rest ih =>
    intro chunks h
    simp only [processTokens] at h
    split at h
    · cases hp : processPhrases analyze fuel (splitChar ':' token) with
      | none => rw [hp] at h; exact Option.noConfusion h
      | some cs =>
        rw [hp] at h
        have h3 : (processTokens analyze fuel rest).map (fun more => cs ++ more)
            = some chunks := h
        cases hr : processTokens analyze fuel rest with
        | none => rw [hr] at h3; exact Option.noConfusion h3
        | some more =>
          rw [hr] at h3
          have h2 : cs ++ more = chunks := by simpa using h3
          subst h2
          intro c hc
          rcases List.mem_append.mp hc with hm | hm
          · exact processPhrases_bound hp c hm
          · exact ih hr c hm
    · rename_i hshort
      cases hr : processTokens analyze fuel rest with
      | none => rw [hr] at h; exact Option.noConfusion h
      | some more =>
        rw [hr] at h
        have h2 : token :: more = chunks := by simpa using h
        subst h2
        intro c hc
        rcases List.mem_cons.mp hc with rfl | hm
        · omega
        · exact ih hr c hm

/-! ## Claim theorems -/

/-- Claim C1: for every input text, every chunk in the sequence returned by
`MyTokenizer` has length at most `MAXCHARS` (100).  On every run that
returns a sequence at all, the bound in fact holds for every chunk with no
exception: the documented oversized-single-word case never returns an
oversized chunk, because on those inputs the packing loop diverges
instead (see claim C2). -/
theorem c1_chunk_bound (dt : PyStr → List PyStr) (analyze : PyStr → List Node)
    (fuel : Nat) (text : PyStr) (chunks : List PyStr)
    (h : MyTokenizer dt analyze fuel text = some chunks) :
    ∀ c ∈ chunks, c.length ≤ MAXCHARS :=
  processTokens_bound h

theorem c1_witness : (str "hi").length ≤ MAXCHARS :=
  c1_chunk_bound (fun t => [t]) (fun _ => []) 1 (str "hi") [str "hi"] (by decide)
    (str "hi") (by decide)

/-- Claim C2: the claim states that a single consolidated unit longer than
`max_len` is emitted as one oversized chunk and that the component never
crashes or hangs.  The code instead hangs: for a unit of length 101 the
packing count is 0, `tmp` never shrinks, and the loop runs forever -
modelled here by `reconstructOpt` returning `none` for every fuel bound. -/
theorem c2_oversized_unit_hangs (fuel : Nat) :
    reconstructOpt fuel [(List.replicate 101 'a', str "NN")] = none := by
  have heq : reconstructOpt fuel [(List.replicate 101 'a', str "NN")]
      = reconstructLoop fuel [(List.replicate 101 'a', str "NN")] := rfl
  rw [heq]
  exact reconstructLoop_none_of_stuck (by decide) fuel

/-- Claim C3, counterexample: the packing loop of `reconstruct` does not
equal the reference greedy packer with bound `max_len`.  With two units
of lengths 50 and 49 the joined length is exactly 100 = MAXCHARS, so the
reference emits one chunk, but the code emits two. -/
theorem c3_counterexample :
    reconstructLoop 3 [(List.replicate 50 'a', str "NN"), (List.replicate 49 'b', str "NN")]
      ≠ refPack 3 MAXCHARS
          [(List.replicate 50 'a', str "NN"), (List.replicate 49 'b', str "NN")] := by
  decide

/-- Claim C3, amended: the packing loop of `reconstruct` equals the
reference greedy packer with bound `max_len - 1`: at each round it takes
the maximal prefix of the remaining units whose cumulative joined length
is at most `MAXCHARS - 1` (equivalently, unit lengths plus one per unit
summing to at most `MAXCHARS`), emits it joined by single spaces, and
repeats on the remainder. -/
theorem c3_amended_pack_equiv : ∀ (fuel : Nat) (tmp : List (PyStr × PyStr)),
    reconstructLoop fuel tmp = refPack fuel (MAXCHARS - 1) tmp := by
  intro fuel
  induction fuel with
  | zero =>
    intro tmp
    cases tmp <;> rfl
  | succ n ih =>
    intro tmp
    cases tmp with
    | nil => rfl
    | cons u us =>
      have hN : maxPrefixLen (MAXCHARS - 1) (u :: us) = packCount (u :: us) := by
        rw [maxPrefixLen_eq_greedy, packCount_eq_greedy]
        norm_num [MAXCHARS]
      simp only [reconstructLoop, refPack]
      rw [hN, ih]

/-- Claim C4: for every analyzed piece, joining the chunks produced by
`reconstruct` with single spaces reproduces the original words of that
piece, except that a trailing unit consisting of a lone period is dropped
and not re-appended. -/
theorem c4_join_reproduces_words (nodes : List Node) (fuel : Nat) (chunks : List PyStr)
    (h : reconstructOpt fuel (consolidate nodes) = some chunks) :
    joinSp chunks = joinSp (flattenWords (stripTrailingPeriod nodes)) := by
  cases hnl : nodes.getLast? with
  | none =>
    cases nodes with
    | nil => exact Option.noConfusion h
    | cons m r => exact absurd hnl (getLast?_cons_ne_none m r)
  | some n =>
    have hcl : (consolidate nodes).getLast? = some (consolidateNode n) := by
      unfold consolidate
      rw [getLast?_map, hnl]
      rfl
    unfold reconstructOpt at h
    rw [hcl] at h
    have h2 : reconstructLoop fuel
        (if (consolidateNode n).1 = str "." then (consolidate nodes).dropLast
         else consolidate nodes) = some chunks := h
    have hstrip : stripTrailingPeriod nodes
        = if (consolidateNode n).1 = str "." then nodes.dropLast else nodes := by
      unfold stripTrailingPeriod
      rw [hnl]
    by_cases hper : (consolidateNode n).1 = str "."
    · rw [if_pos hper] at h2
      have hdl : (consolidate nodes).dropLast = consolidate nodes.dropLast := by
        unfold consolidate
        exact dropLast_map _ _
      rw [hdl] at h2
      rw [reconstructLoop_join h2, joinSp_consolidate, hstrip, if_pos hper]
    · rw [if_neg hper] at h2
      rw [reconstructLoop_join h2, joinSp_consolidate, hstrip, if_neg hper]

theorem c4_witness :
    joinSp [str "hello big dog"] =
      joinSp (flattenWords (stripTrailingPeriod
        [Node.leaf (str "hello", str "NN"),
         Node.phrase (str "big", str "JJ") [(str "dog", str "NN")],
         Node.leaf (str ".", str ".")])) :=
  c4_join_reproduces_words _ 3 _ (by decide)

/-- Claim C5: for every text of length at most `MAXCHARS`, the tokenizer
returns the single-element sequence holding the text unchanged.  The base
split is performed by the external gTTS splitter `dt`; the spec treats
that step as a pass-through, so it is assumed to hand the short text back
whole. -/
theorem c5_short_noop (dt : PyStr → List PyStr) (analyze : PyStr → List Node)
    (fuel : Nat) (text : PyStr) (hdt : dt text = [text])
    (hlen : text.length ≤ MAXCHARS) :
    MyTokenizer dt analyze fuel text = some [text] := by
  unfold MyTokenizer
  rw [hdt]
  simp only [processTokens]
  rw [if_neg (by omega)]
  rfl

theorem c5_witness :
    MyTokenizer (fun t => [t]) (fun _ => []) 0 (str "short") = some [str "short"] :=
  c5_short_noop _ _ _ _ rfl (by decide)

/-- Claim C6: the claim states that a single keyword is rendered as is,
two as "kw1 and kw2", and three or more as a comma list with a final
"and".  The code compares the keyword list itself (not its length) with
the integers 1 and 2, comparisons that are always false in Python, so the
general branch always runs: one keyword "alpha" is rendered as
"and alpha" inside the composed description, not as "alpha". -/
theorem c6_keyword_format_bug :
    generateDescription
        { author := str "A B", title := str "T", keywords := some (str "alpha") } =
      str ("A B published a paper entitled: T." ++
        " Publication keywords include: and alpha." ++
        " There is no abstract available." ++
        " This concludes the summary of the work by A B.")
    ∧ keywordClause (str "alpha") ≠ str " Publication keywords include: alpha." :=
  ⟨by decide, by decide⟩

/-- Claim C7: author normalization reverses each "last, first" name to
"first last" (stripping the surrounding whitespace), and joins the list
as 1 author as is, 2 as "A and B", 3 as "A, B, and C", and 4 or more as
"A et al" with A the first author in first-last order. -/
theorem c7_author_format (ps : List (PyStr × PyStr)) (hne : ps ≠ [])
    (hc : ∀ p ∈ ps, (∀ c ∈ p.1, c ≠ ',') ∧ (∀ c ∈ p.2, c ≠ ',')) :
    formatAuthors (ps.map (fun p => p.1 ++ ',' :: p.2)) =
      some (claimJoin (ps.map (fun p => pyStrip p.2 ++ ' ' :: pyStrip p.1))) := by
  have hsplit : ∀ p ∈ ps, splitChar ',' (p.1 ++ ',' :: p.2) = [p.1, p.2] := fun p hp =>
    splitChar_pair (hc p hp).1 (hc p hp).2
  have hany : ¬((ps.map (fun p => p.1 ++ ',' :: p.2)).any
      (fun a => 2 < (splitChar ',' a).length) = true) := by
    have hfalse : (ps.map (fun p => p.1 ++ ',' :: p.2)).any
        (fun a => 2 < (splitChar ',' a).length) = false := by
      rw [List.any_eq_false]
      intro a ha
      obtain ⟨p, hp, rfl⟩ := List.mem_map.mp ha
      rw [hsplit p hp]
      simp
    simp [hfalse]
  have hmap : (ps.map (fun p => p.1 ++ ',' :: p.2)).map reverseName
      = ps.map (fun p => pyStrip p.2 ++ ' ' :: pyStrip p.1) := by
    rw [List.map_map]
    apply List.map_congr_left
    intro p hp
    exact reverseName_render p (hc p hp).1 (hc p hp).2
  unfold formatAuthors
  rw [if_neg hany, hmap]
  rcases ps with _ | ⟨p1, _ | ⟨p2, _ | ⟨p3, _ | ⟨p4, rest⟩⟩⟩⟩
  · exact absurd rfl hne
  · rfl
  · rfl
  · rfl
  · rfl

theorem c7_witness :
    formatAuthors [str "A, B", str "C, D", str "E, F"] = some (str "B A, D C, and F E") :=
  (c7_author_format [(str "A", str " B"), (str "C", str " D"), (str "E", str " F")]
    (by decide) (by decide)).trans (by decide)

/-- Claim C8: if any two records share the same key, processing fails with
a hard stop (the uniqueness assert) before any further extraction; if all
keys are distinct, the check passes and extraction proceeds on the keys. -/
theorem c8_duplicate_keys (lib : List Article) :
    (¬(lib.map Article.ID).Nodup →
        processBibData lib = Except.error (str "article keys are not unique!"))
    ∧ ((lib.map Article.ID).Nodup →
        processBibData lib = Except.ok (lib.map Article.ID)) := by
  unfold processBibData
  constructor
  · intro h
    rw [if_neg fun he => h ((setSize_eq_iff _).mp he)]
  · intro h
    rw [if_pos ((setSize_eq_iff _).mpr h)]

theorem c8_witness :
    processBibData [⟨str "k", none, none⟩, ⟨str "k", none, none⟩]
        = Except.error (str "article keys are not unique!")
    ∧ processBibData [⟨str "a", none, none⟩, ⟨str "b", none, none⟩]
        = Except.ok [str "a", str "b"] :=
  ⟨(c8_duplicate_keys _).1 (by decide), (c8_duplicate_keys _).2 (by decide)⟩

/-- Claim C9: for some input text, `MyTokenizer` returns a sequence
containing the empty string as a chunk: an over-length base token is split
on the colon characters, which are removed, and the empty piece between
two adjacent colons is emitted verbatim because its length is at most
`MAXCHARS`. -/
theorem c9_empty_chunk :
    MyTokenizer (fun t => [t]) (fun _ => []) 1
        (List.replicate 50 'a' ++ ':' :: ':' :: List.replicate 49 'b') =
      some [List.replicate 50 'a', [], List.replicate 49 'b']
    ∧ ([] : PyStr) ∈ [List.replicate 50 'a', ([] : PyStr), List.replicate 49 'b'] :=
  ⟨by decide, by decide⟩

/-- Claim C10: if any record has a month but no year, date extraction
raises (formatting None) and construction fails; otherwise the reported
missing-date count equals the number of records without a year field. -/
theorem c10_month_without_year (lib : List Article) :
    ((∃ a ∈ lib, a.month.isSome = true ∧ a.year = none) →
        processDates lib = Except.error dateTypeError)
    ∧ ((∀ a ∈ lib, a.month.isSome = true → a.year.isSome = true) →
        processDates lib = Except.ok (lib.countP (fun a => a.year.isNone))) := by
  constructor
  · intro h
    simp only [processDates, mapDates_error_of_bad h]
  · intro h
    obtain ⟨ds, hds, hc⟩ := mapDates_ok_of_good h
    simp only [processDates, hds, hc]

theorem c10_witness :
    processDates [⟨str "r1", none, some (str "January")⟩] = Except.error dateTypeError
    ∧ processDates [⟨str "a", some (str "2020"), none⟩, ⟨str "b", none, none⟩]
        = Except.ok 1 :=
  ⟨(c10_month_without_year _).1 (by decide),
   ((c10_month_without_year _).2 (by decide)).trans (by rfl)⟩

end Bib2mp3
